import Mathlib

/-!
Shallow embedding of `node/src/components/contract_runtime/core/engine_state/
executable_deploy_item.rs` from the casper-node repository, together with the
external collaborator types it consumes (`Key`, `Account`, the `bytesrepr`
argument codec, `RuntimeArgs`, the engine-state error type and the default
entry-point constant), which are modelled from the specification where their
source is not part of this repository snapshot.

Machine bytes (`u8`) are modelled as `Nat`; byte buffers (`Vec<u8>`) as
`List Nat`; `BTreeMap<String, Key>` as an association list with unique keys,
consulted through `List.lookup` exactly as the source consults `get`.
-/

namespace Casper

/-- Modelled from the spec: an address-like key (the external `types::Key`);
this component only needs the injection `Key::from` of a contract or
contract-package hash, plus the fact that an account's named keys hold
arbitrary key values. -/
inductive Key where
  /-- A key built from a 32-byte contract or package hash (`Key::Hash`). -/
  | hash (bytes : List Nat) : Key
  /-- Some other kind of key stored in an account's named keys. -/
  | other (tag : Nat) : Key
  deriving DecidableEq, Repr

/-- Modelled from the spec: the external `Account` collaborator. It "owns a
mapping from name (string) to an address-like key"; the resolution operation
only consumes the lookup operation `named_keys().get(name)`. -/
structure Account where
  namedKeys : List (String × Key)
  deriving DecidableEq, Repr

/-- The lookup the source performs: `account.named_keys().get(name).cloned()`. -/
def Account.named_keys_get (account : Account) (name : String) : Option Key :=
  account.namedKeys.lookup name

/-- Modelled from the spec: the execution-error variant `NamedKeyNotFound(name)`
raised "when a name-addressed variant's name is absent from the account
namespace" (`execution::Error`). Only this variant is constructed here. -/
inductive ExecutionError where
  | namedKeyNotFound (name : String) : ExecutionError
  deriving DecidableEq, Repr

/-- Modelled from the spec: the engine-state error type `error::Error`,
wrapping an execution error (`error::Error::Exec`). -/
inductive Error where
  | exec (e : ExecutionError) : Error
  deriving DecidableEq, Repr

/-- `ContractVersion` from the external `types` crate: "version, when present,
is a plain non-negative integer". -/
abbrev ContractVersion := Nat

/-- Modelled from the spec: the fixed default entry-point identifier
`DEFAULT_ENTRY_POINT_NAME`, "a well-known constant string, e.g. `"call"`". -/
def DEFAULT_ENTRY_POINT_NAME : String := "call"

/-- The six-variant tagged union `ExecutableDeployItem`, with variants and
fields in source declaration order. -/
inductive ExecutableDeployItem where
  | moduleBytes (module_bytes : List Nat) (args : List Nat)
  | storedContractByHash (hash : List Nat) (entry_point : String) (args : List Nat)
  | storedContractByName (name : String) (entry_point : String) (args : List Nat)
  | storedVersionedContractByName (name : String) (version : Option ContractVersion)
      (entry_point : String) (args : List Nat)
  | storedVersionedContractByHash (hash : List Nat) (version : Option ContractVersion)
      (entry_point : String) (args : List Nat)
  | transfer (args : List Nat)
  deriving DecidableEq, Repr

namespace ExecutableDeployItem

/-- `ExecutableDeployItem::to_contract_hash_key`, arm by arm from the source:
hash-addressed variants wrap the carried hash in a key; name-addressed
variants look the name up in the account's named keys, failing with
`Error::Exec(Error::NamedKeyNotFound(name))` when absent; module
bytes and transfer yield `Ok(None)`. -/
def to_contract_hash_key (item : ExecutableDeployItem) (account : Account) :
    Except Error (Option Key) :=
  match item with
  | .storedContractByHash h _ _ => .ok (some (Key.hash h))
  | .storedVersionedContractByHash h _ _ _ => .ok (some (Key.hash h))
  | .storedContractByName name _ _ =>
      match account.named_keys_get name with
      | some key => .ok (some key)
      | none => .error (Error.exec (ExecutionError.namedKeyNotFound name))
  | .storedVersionedContractByName name _ _ _ =>
      match account.named_keys_get name with
      | some key => .ok (some key)
      | none => .error (Error.exec (ExecutionError.namedKeyNotFound name))
  | .moduleBytes _ _ => .ok none
  | .transfer _ => .ok none

/-- `ExecutableDeployItem::entry_point_name`: module bytes and transfer yield
the default entry-point constant; the four stored variants return the carried
`entry_point` string unchanged. -/
def entry_point_name : ExecutableDeployItem → String
  | .moduleBytes _ _ => DEFAULT_ENTRY_POINT_NAME
  | .transfer _ => DEFAULT_ENTRY_POINT_NAME
  | .storedVersionedContractByName _ _ ep _ => ep
  | .storedVersionedContractByHash _ _ ep _ => ep
  | .storedContractByHash _ ep _ => ep
  | .storedContractByName _ ep _ => ep

end ExecutableDeployItem

/-- Modelled from the spec: the opaque decode error surfaced by the external
binary codec (`bytesrepr::Error`, the spec's `ArgumentDecodeError`). -/
inductive BytesreprError where
  | earlyEndOfStream : BytesreprError
  | leftOverBytes : BytesreprError
  deriving DecidableEq, Repr

/-- Modelled from the spec: the decoded arguments, "a named mapping
(parameter name → value)" (the external `RuntimeArgs`); values are opaque
byte strings to this component. -/
structure RuntimeArgs where
  args : List (String × List Nat)
  deriving DecidableEq, Repr

namespace bytesrepr

/-- Modelled from the spec: length-prefixed encoding of a string, in the
external codec's byte-buffer convention (length, then the character bytes). -/
def encodeString (s : String) : List Nat :=
  s.length :: s.data.map Char.toNat

/-- Modelled from the spec: length-prefixed encoding of an opaque value
buffer. -/
def encodeBytes (b : List Nat) : List Nat :=
  b.length :: b

/-- Modelled from the spec: the encoding of a named-argument mapping that the
decode operation is a left-inverse of — the element count followed by each
name/value pair in order. -/
def serialize (ra : RuntimeArgs) : List Nat :=
  ra.args.length :: (ra.args.map fun p => encodeString p.1 ++ encodeBytes p.2).flatten

/-- Read one leading byte, failing on an empty buffer. -/
def readByte : List Nat → Except BytesreprError (Nat × List Nat)
  | [] => .error .earlyEndOfStream
  | b :: rest => .ok (b, rest)

/-- Read exactly `n` bytes, failing on a truncated buffer. -/
def readChunk : Nat → List Nat → Except BytesreprError (List Nat × List Nat)
  | 0, rest => .ok ([], rest)
  | _ + 1, [] => .error .earlyEndOfStream
  | n + 1, b :: rest =>
      match readChunk n rest with
      | .ok (xs, r) => .ok (b :: xs, r)
      | .error e => .error e

/-- Read one length-prefixed string. -/
def readString (input : List Nat) : Except BytesreprError (String × List Nat) :=
  match readByte input with
  | .error e => .error e
  | .ok (len, r1) =>
    match readChunk len r1 with
    | .error e => .error e
    | .ok (cs, r2) => .ok (String.mk (cs.map Char.ofNat), r2)

/-- Read one name/value pair. -/
def readNamedArg (input : List Nat) :
    Except BytesreprError ((String × List Nat) × List Nat) :=
  match readString input with
  | .error e => .error e
  | .ok (name, r1) =>
    match readByte r1 with
    | .error e => .error e
    | .ok (len, r2) =>
      match readChunk len r2 with
      | .error e => .error e
      | .ok (v, r3) => .ok ((name, v), r3)

/-- Read exactly `n` name/value pairs. -/
def readNamedArgs : Nat → List Nat → Except BytesreprError (List (String × List Nat) × List Nat)
  | 0, rest => .ok ([], rest)
  | n + 1, input =>
      match readNamedArg input with
      | .error e => .error e
      | .ok (p, r1) =>
        match readNamedArgs n r1 with
        | .error e => .error e
        | .ok (ps, r2) => .ok (p :: ps, r2)

/-- Modelled from the spec: `bytesrepr::deserialize`, the fallible decode of
an opaque byte buffer into the named-argument mapping; a malformed or
truncated buffer fails with a decode error, and the whole buffer must be
consumed. -/
def deserialize (input : List Nat) : Except BytesreprError RuntimeArgs :=
  match readByte input with
  | .error e => .error e
  | .ok (count, r1) =>
    match readNamedArgs count r1 with
    | .error e => .error e
    | .ok (pairs, r2) =>
      if r2.isEmpty then .ok ⟨pairs⟩ else .error .leftOverBytes

end bytesrepr

/-- `ExecutableDeployItem::into_runtime_args`: every variant hands its `args`
buffer to `bytesrepr::deserialize`. -/
def ExecutableDeployItem.into_runtime_args :
    ExecutableDeployItem → Except BytesreprError RuntimeArgs
  | .moduleBytes _ args => bytesrepr.deserialize args
  | .storedContractByHash _ _ args => bytesrepr.deserialize args
  | .storedContractByName _ _ args => bytesrepr.deserialize args
  | .storedVersionedContractByHash _ _ _ args => bytesrepr.deserialize args
  | .storedVersionedContractByName _ _ _ args => bytesrepr.deserialize args
  | .transfer args => bytesrepr.deserialize args

/-- The `args` byte buffer carried by a descriptor, whichever variant holds
it; used to state that argument decoding depends on nothing else. -/
def ExecutableDeployItem.argsBytes : ExecutableDeployItem → List Nat
  | .moduleBytes _ args => args
  | .storedContractByHash _ _ args => args
  | .storedContractByName _ _ args => args
  | .storedVersionedContractByName _ _ _ args => args
  | .storedVersionedContractByHash _ _ _ args => args
  | .transfer args => args

/-! ### The derived total order

`ExecutableDeployItem` derives `PartialOrd`/`Ord`. The derive's semantics:
values of different variants compare by discriminant in declaration order;
values of the same variant compare field-wise in declaration order, where
`Vec<u8>` and `String` compare lexicographically byte-for-byte and
`Option<u32>` puts `None` before every `Some`. -/

/-- Lexicographic comparison of lists, element-wise; shorter prefixes come
first (the ordering of Rust `Vec`/slices). -/
def cmpList (cmp : α → α → Ordering) : List α → List α → Ordering
  | [], [] => .eq
  | [], _ :: _ => .lt
  | _ :: _, [] => .gt
  | x :: xs, y :: ys => (cmp x y).then (cmpList cmp xs ys)

/-- Byte-for-byte comparison of byte buffers (`Vec<u8>` ordering). -/
def cmpBytes : List Nat → List Nat → Ordering := cmpList compare

/-- Character comparison by code point, matching Rust's byte-wise `String`
ordering (UTF-8 preserves code-point order). -/
def charCmp (c d : Char) : Ordering := compare c.toNat d.toNat

/-- Rust `String` ordering: lexicographic, byte-for-byte. -/
def cmpString (s t : String) : Ordering := cmpList charCmp s.data t.data

/-- Rust `Option` ordering: `None` precedes every `Some`. -/
def cmpOption (cmp : α → α → Ordering) : Option α → Option α → Ordering
  | none, none => .eq
  | none, some _ => .lt
  | some _, none => .gt
  | some a, some b => cmp a b

/-- Lexicographic comparison of pairs: first component, then the second. -/
def cmpProd (c1 : α → α → Ordering) (c2 : β → β → Ordering) (x y : α × β) : Ordering :=
  (c1 x.1 y.1).then (c2 x.2 y.2)

namespace ExecutableDeployItem

/-- Discriminant rank of a variant, in declaration order. -/
def rank : ExecutableDeployItem → Nat
  | .moduleBytes _ _ => 0
  | .storedContractByHash _ _ _ => 1
  | .storedContractByName _ _ _ => 2
  | .storedVersionedContractByName _ _ _ _ => 3
  | .storedVersionedContractByHash _ _ _ _ => 4
  | .transfer _ => 5

/-- The derived `Ord` on `ExecutableDeployItem`: same-variant values compare
field-wise in declaration order, different variants by discriminant rank. -/
def cmp (a b : ExecutableDeployItem) : Ordering :=
  match a, b with
  | .moduleBytes m1 a1, .moduleBytes m2 a2 =>
      (cmpBytes m1 m2).then (cmpBytes a1 a2)
  | .storedContractByHash h1 e1 a1, .storedContractByHash h2 e2 a2 =>
      (cmpBytes h1 h2).then ((cmpString e1 e2).then (cmpBytes a1 a2))
  | .storedContractByName n1 e1 a1, .storedContractByName n2 e2 a2 =>
      (cmpString n1 n2).then ((cmpString e1 e2).then (cmpBytes a1 a2))
  | .storedVersionedContractByName n1 v1 e1 a1, .storedVersionedContractByName n2 v2 e2 a2 =>
      (cmpString n1 n2).then
        ((cmpOption compare v1 v2).then ((cmpString e1 e2).then (cmpBytes a1 a2)))
  | .storedVersionedContractByHash h1 v1 e1 a1, .storedVersionedContractByHash h2 v2 e2 a2 =>
      (cmpBytes h1 h2).then
        ((cmpOption compare v1 v2).then ((cmpString e1 e2).then (cmpBytes a1 a2)))
  | .transfer a1, .transfer a2 => cmpBytes a1 a2
  | x, y => compare x.rank y.rank

end ExecutableDeployItem

/-- A comparator that induces a strict total order consistent with
equality. -/
structure StrictCmp (cmp : α → α → Ordering) : Prop where
  eq_iff : ∀ a b, cmp a b = .eq ↔ a = b
  symm : ∀ a b, (cmp a b).swap = cmp b a
  lt_trans : ∀ a b c, cmp a b = .lt → cmp b c = .lt → cmp a c = .lt

/-! ### Diagnostic rendering (`impl Display for ExecutableDeployItem`) -/

/-- The sixteen hex digit characters. -/
def hexDigit (n : Nat) : Char :=
  if n < 10 then Char.ofNat (48 + n) else Char.ofNat (87 + n % 16)

/-- Two hex digits of one byte. -/
def hexByte (b : Nat) : List Char :=
  [hexDigit (b / 16 % 16), hexDigit (b % 16)]

/-- Modelled from the spec: the full hex rendering of a byte buffer (the
external `HexFmt` with no width limit). -/
def hexFmt (bytes : List Nat) : String :=
  String.mk (bytes.map hexByte).flatten

/-- Modelled from the spec: the width-limited hex rendering (`{:10}` on the
external `HexFmt`): "only a short prefix needs to be shown, not the full
payload". -/
def hexFmt10 (bytes : List Nat) : String :=
  let full := (bytes.map hexByte).flatten
  if full.length ≤ 10 then String.mk full
  else String.mk (full.take 9 ++ ['…'])

namespace ExecutableDeployItem

/-- The human-readable summary renderer, arm for arm from the source
`Display` impl, including the distinct `version {v}` / `latest version`
texts for present and absent versions. -/
def display : ExecutableDeployItem → String
  | .moduleBytes mb args =>
      "execute module bytes " ++ hexFmt10 mb ++ ", args " ++ hexFmt10 args
  | .storedContractByHash h ep args =>
      "execute stored contract by hash " ++ hexFmt h ++ ", entry point " ++ ep
        ++ ", args " ++ hexFmt10 args
  | .storedContractByName n ep args =>
      "execute stored contract by name " ++ n ++ ", entry point " ++ ep
        ++ ", args " ++ hexFmt10 args
  | .storedVersionedContractByName n (some ver) ep args =>
      "execute stored versioned contract " ++ n ++ ", version " ++ toString ver
        ++ ", entry point " ++ ep ++ ", args " ++ hexFmt10 args
  | .storedVersionedContractByName n none ep args =>
      "execute stored versioned contract " ++ n ++ ", latest version, entry point "
        ++ ep ++ ", args " ++ hexFmt10 args
  | .storedVersionedContractByHash h (some ver) ep args =>
      "execute stored versioned contract by hash " ++ hexFmt h ++ ", version "
        ++ toString ver ++ ", entry point " ++ ep ++ ", args " ++ hexFmt10 args
  | .storedVersionedContractByHash h none ep args =>
      "execute stored versioned contract by hash " ++ hexFmt h
        ++ ", latest version, entry point " ++ ep ++ ", args " ++ hexFmt10 args
  | .transfer args =>
      "execute transfer args " ++ hexFmt10 args

end ExecutableDeployItem

/-! ### A state-threading rendition of resolution, for the frame property -/

/-- The map traversal performed by `named_keys().get(name).cloned()`: walk the
entries comparing names, and return both the cloned result and the mapping as
the walk leaves it behind. -/
def lookupClone : List (String × Key) → String → Option Key × List (String × Key)
  | [], _ => (none, [])
  | (k, v) :: rest, n =>
      if n == k then (some v, (k, v) :: rest)
      else
        let r := lookupClone rest n
        (r.1, (k, v) :: r.2)

/-- `to_contract_hash_key` with the account state threaded through explicitly,
step for step from the source: the result of each arm together with the
account as it stands after the call (the source takes `&self` and
`&Account`, and its only access to the account is the cloning lookup). -/
def ExecutableDeployItem.to_contract_hash_key_run
    (item : ExecutableDeployItem) (account : Account) :
    (Except Error (Option Key)) × Account :=
  match item with
  | .storedContractByHash h _ _ => (.ok (some (Key.hash h)), account)
  | .storedVersionedContractByHash h _ _ _ => (.ok (some (Key.hash h)), account)
  | .storedContractByName name _ _ =>
      let res := lookupClone account.namedKeys name
      (match res.1 with
        | some key => .ok (some key)
        | none => .error (Error.exec (ExecutionError.namedKeyNotFound name)),
       ⟨res.2⟩)
  | .storedVersionedContractByName name _ _ _ =>
      let res := lookupClone account.namedKeys name
      (match res.1 with
        | some key => .ok (some key)
        | none => .error (Error.exec (ExecutionError.namedKeyNotFound name)),
       ⟨res.2⟩)
  | .moduleBytes _ _ => (.ok none, account)
  | .transfer _ => (.ok none, account)

namespace bytesrepr

theorem readChunk_append (xs rest : List Nat) :
    readChunk xs.length (xs ++ rest) = .ok (xs, rest) := by
  induction xs with
  | nil => rfl
  | cons x xs ih => simp [readChunk, ih]

theorem readString_encode (s : String) (rest : List Nat) :
    readString (encodeString s ++ rest) = .ok (s, rest) := by
  have hchunk := readChunk_append (s.data.map Char.toNat) rest
  have hmk : (s.data.map Char.toNat).map Char.ofNat = s.data := by
    simp [List.map_map, Function.comp_def, Char.ofNat_toNat]
  have harg : encodeString s ++ rest = s.length :: (s.data.map Char.toNat ++ rest) := rfl
  have hlen : s.length = (s.data.map Char.toNat).length := by
    rw [List.length_map]; rfl
  rw [harg, show readString (s.length :: (s.data.map Char.toNat ++ rest)) =
    (match readChunk s.length (s.data.map Char.toNat ++ rest) with
      | .error e => .error e
      | .ok (cs, r2) => .ok (String.mk (cs.map Char.ofNat), r2)) from rfl,
    hlen, hchunk]
  rw [show (match (.ok (s.data.map Char.toNat, rest) :
      Except BytesreprError (List Nat × List Nat)) with
      | .error e => .error e
      | .ok (cs, r2) => .ok (String.mk (cs.map Char.ofNat), r2)) =
    Except.ok (String.mk ((s.data.map Char.toNat).map Char.ofNat), rest) from rfl, hmk]

theorem readNamedArg_encode (p : String × List Nat) (rest : List Nat) :
    readNamedArg (encodeString p.1 ++ encodeBytes p.2 ++ rest) = .ok (p, rest) := by
  obtain ⟨name, v⟩ := p
  have hs := readString_encode name (encodeBytes v ++ rest)
  have hchunk := readChunk_append v rest
  rw [List.append_assoc]
  simp only [encodeBytes, List.cons_append] at hs ⊢
  simp only [readNamedArg, hs, readByte, hchunk]

theorem readNamedArgs_encode (ps : List (String × List Nat)) (rest : List Nat) :
    readNamedArgs ps.length
      ((ps.map fun p => encodeString p.1 ++ encodeBytes p.2).flatten ++ rest) =
      .ok (ps, rest) := by
  induction ps generalizing rest with
  | nil => rfl
  | cons p ps ih =>
    have hp := readNamedArg_encode p
      ((ps.map fun q => encodeString q.1 ++ encodeBytes q.2).flatten ++ rest)
    rw [List.append_assoc] at hp
    simp only [readNamedArgs, List.length_cons, List.map_cons, List.flatten_cons,
      List.append_assoc, hp, ih]

/-- Decoding is a left inverse of encoding: the round trip reproduces the
original named-argument mapping. -/
theorem deserialize_serialize (ra : RuntimeArgs) :
    deserialize (serialize ra) = .ok ra := by
  obtain ⟨args⟩ := ra
  have h := readNamedArgs_encode args []
  rw [List.append_nil] at h
  simp only [deserialize, serialize, readByte, h, List.isEmpty_nil, if_true]

end bytesrepr

theorem StrictCmp.refl {cmp : α → α → Ordering} (s : StrictCmp cmp) (a : α) :
    cmp a a = .eq :=
  (s.eq_iff a a).mpr rfl

theorem natStrict : StrictCmp (compare : Nat → Nat → Ordering) where
  eq_iff _ _ := Nat.compare_eq_eq
  symm a b := by
    rcases Nat.lt_trichotomy a b with h | h | h
    · rw [Nat.compare_eq_lt.mpr h, Nat.compare_eq_gt.mpr h]; rfl
    · subst h; rw [Nat.compare_eq_eq.mpr rfl]; rfl
    · rw [Nat.compare_eq_gt.mpr h, Nat.compare_eq_lt.mpr h]; rfl
  lt_trans a b c h1 h2 :=
    Nat.compare_eq_lt.mpr
      (Nat.lt_trans (Nat.compare_eq_lt.mp h1) (Nat.compare_eq_lt.mp h2))

theorem charStrict : StrictCmp charCmp where
  eq_iff c d := by
    unfold charCmp
    rw [Nat.compare_eq_eq]
    exact ⟨fun h => by
      have := congrArg Char.ofNat h
      rwa [Char.ofNat_toNat, Char.ofNat_toNat] at this,
      fun h => by rw [h]⟩
  symm c d := natStrict.symm c.toNat d.toNat
  lt_trans c d e h1 h2 := natStrict.lt_trans c.toNat d.toNat e.toNat h1 h2

theorem listStrict {cmp : α → α → Ordering} (s : StrictCmp cmp) :
    StrictCmp (cmpList cmp) where
  eq_iff xs ys := by
    induction xs generalizing ys with
    | nil => cases ys <;> simp [cmpList]
    | cons x xs ih =>
      cases ys with
      | nil => simp [cmpList]
      | cons y ys =>
        simp only [cmpList, Ordering.then_eq_eq, ih, s.eq_iff, List.cons.injEq]
  symm xs ys := by
    induction xs generalizing ys with
    | nil => cases ys <;> rfl
    | cons x xs ih =>
      cases ys with
      | nil => rfl
      | cons y ys =>
        simp only [cmpList, Ordering.swap_then, s.symm, ih]
  lt_trans xs ys zs h1 h2 := by
    induction xs generalizing ys zs with
    | nil =>
      cases zs with
      | nil =>
        cases ys with
        | nil => exact h1
        | cons y ys => exact absurd h2 (by simp [cmpList])
      | cons z zs => rfl
    | cons x xs ih =>
      cases ys with
      | nil => exact absurd h1 (by simp [cmpList])
      | cons y ys =>
        cases zs with
        | nil => exact absurd h2 (by simp [cmpList])
        | cons z zs =>
          simp only [cmpList, Ordering.then_eq_lt] at h1 h2 ⊢
          rcases h1 with h1 | ⟨h1e, h1r⟩
          · rcases h2 with h2 | ⟨h2e, h2r⟩
            · exact Or.inl (s.lt_trans _ _ _ h1 h2)
            · rw [(s.eq_iff _ _).mp h2e] at h1; exact Or.inl h1
          · rcases h2 with h2 | ⟨h2e, h2r⟩
            · rw [← (s.eq_iff _ _).mp h1e] at h2; exact Or.inl h2
            · exact Or.inr ⟨by rw [(s.eq_iff _ _).mp h1e, h2e],
                ih _ _ h1r h2r⟩

theorem bytesStrict : StrictCmp cmpBytes := listStrict natStrict

theorem stringStrict : StrictCmp cmpString where
  eq_iff s t := by
    unfold cmpString
    rw [(listStrict charStrict).eq_iff]
    exact ⟨fun h => by cases s; cases t; exact congrArg String.mk h,
      congrArg String.data⟩
  symm s t := (listStrict charStrict).symm s.data t.data
  lt_trans s t u h1 h2 := (listStrict charStrict).lt_trans s.data t.data u.data h1 h2

theorem optionStrict {cmp : α → α → Ordering} (s : StrictCmp cmp) :
    StrictCmp (cmpOption cmp) where
  eq_iff a b := by
    cases a <;> cases b <;> simp [cmpOption, s.eq_iff]
  symm a b := by
    cases a <;> cases b <;> first | rfl | exact s.symm _ _
  lt_trans a b c h1 h2 := by
    cases a <;> cases b <;> cases c <;> simp_all [cmpOption]
    exact s.lt_trans _ _ _ h1 h2

theorem prodStrict {c1 : α → α → Ordering} {c2 : β → β → Ordering}
    (s1 : StrictCmp c1) (s2 : StrictCmp c2) : StrictCmp (cmpProd c1 c2) where
  eq_iff x y := by
    simp only [cmpProd, Ordering.then_eq_eq, s1.eq_iff, s2.eq_iff, Prod.ext_iff]
  symm x y := by
    simp only [cmpProd, Ordering.swap_then, s1.symm, s2.symm]
  lt_trans x y z h1 h2 := by
    simp only [cmpProd, Ordering.then_eq_lt] at h1 h2 ⊢
    rcases h1 with h1 | ⟨h1e, h1r⟩
    · rcases h2 with h2 | ⟨h2e, h2r⟩
      · exact Or.inl (s1.lt_trans _ _ _ h1 h2)
      · rw [(s1.eq_iff _ _).mp h2e] at h1; exact Or.inl h1
    · rcases h2 with h2 | ⟨h2e, h2r⟩
      · rw [← (s1.eq_iff _ _).mp h1e] at h2; exact Or.inl h2
      · exact Or.inr ⟨by rw [(s1.eq_iff _ _).mp h1e, h2e],
          s2.lt_trans _ _ _ h1r h2r⟩

namespace ExecutableDeployItem

theorem mbStrict : StrictCmp (cmpProd cmpBytes cmpBytes) :=
  prodStrict bytesStrict bytesStrict

theorem scbhStrict : StrictCmp (cmpProd cmpBytes (cmpProd cmpString cmpBytes)) :=
  prodStrict bytesStrict (prodStrict stringStrict bytesStrict)

theorem scbnStrict : StrictCmp (cmpProd cmpString (cmpProd cmpString cmpBytes)) :=
  prodStrict stringStrict (prodStrict stringStrict bytesStrict)

theorem svcbnStrict :
    StrictCmp (cmpProd cmpString
      (cmpProd (cmpOption (compare : Nat → Nat → Ordering))
        (cmpProd cmpString cmpBytes))) :=
  prodStrict stringStrict
    (prodStrict (optionStrict natStrict) (prodStrict stringStrict bytesStrict))

theorem svcbhStrict :
    StrictCmp (cmpProd cmpBytes
      (cmpProd (cmpOption (compare : Nat → Nat → Ordering))
        (cmpProd cmpString cmpBytes))) :=
  prodStrict bytesStrict
    (prodStrict (optionStrict natStrict) (prodStrict stringStrict bytesStrict))

theorem cmp_eq_iff : ∀ a b : ExecutableDeployItem, cmp a b = .eq ↔ a = b := by
  intro a b
  cases a <;> cases b <;>
    first
      | exact iff_of_false (fun h => Ordering.noConfusion (h : Ordering.lt = .eq))
          (fun h => ExecutableDeployItem.noConfusion h)
      | exact iff_of_false (fun h => Ordering.noConfusion (h : Ordering.gt = .eq))
          (fun h => ExecutableDeployItem.noConfusion h)
      | exact ⟨fun h => by
            have h2 := (mbStrict.eq_iff (_, _) (_, _)).mp h
            simp_all [Prod.ext_iff],
          fun h => by rw [h]; exact (mbStrict.eq_iff (_, _) (_, _)).mpr rfl⟩
      | exact ⟨fun h => by
            have h2 := (scbhStrict.eq_iff (_, _, _) (_, _, _)).mp h
            simp_all [Prod.ext_iff],
          fun h => by rw [h]; exact (scbhStrict.eq_iff (_, _, _) (_, _, _)).mpr rfl⟩
      | exact ⟨fun h => by
            have h2 := (scbnStrict.eq_iff (_, _, _) (_, _, _)).mp h
            simp_all [Prod.ext_iff],
          fun h => by rw [h]; exact (scbnStrict.eq_iff (_, _, _) (_, _, _)).mpr rfl⟩
      | exact ⟨fun h => by
            have h2 := (svcbnStrict.eq_iff (_, _, _, _) (_, _, _, _)).mp h
            simp_all [Prod.ext_iff],
          fun h => by
            rw [h]; exact (svcbnStrict.eq_iff (_, _, _, _) (_, _, _, _)).mpr rfl⟩
      | exact ⟨fun h => by
            have h2 := (svcbhStrict.eq_iff (_, _, _, _) (_, _, _, _)).mp h
            simp_all [Prod.ext_iff],
          fun h => by
            rw [h]; exact (svcbhStrict.eq_iff (_, _, _, _) (_, _, _, _)).mpr rfl⟩
      | exact ⟨fun h => by
            have h2 := (bytesStrict.eq_iff _ _).mp h
            simp_all,
          fun h => by rw [h]; exact (bytesStrict.eq_iff _ _).mpr rfl⟩

theorem cmp_symm : ∀ a b : ExecutableDeployItem, (cmp a b).swap = cmp b a := by
  intro a b
  cases a <;> cases b <;>
    first
      | rfl
      | exact mbStrict.symm (_, _) (_, _)
      | exact scbhStrict.symm (_, _, _) (_, _, _)
      | exact scbnStrict.symm (_, _, _) (_, _, _)
      | exact svcbnStrict.symm (_, _, _, _) (_, _, _, _)
      | exact svcbhStrict.symm (_, _, _, _) (_, _, _, _)
      | exact bytesStrict.symm _ _

theorem cmp_lt_trans : ∀ a b c : ExecutableDeployItem,
    cmp a b = .lt → cmp b c = .lt → cmp a c = .lt := by
  intro a b c h1 h2
  cases a <;> cases b <;> cases c <;>
    first
      | rfl
      | exact Ordering.noConfusion (h1 : Ordering.gt = .lt)
      | exact Ordering.noConfusion (h2 : Ordering.gt = .lt)
      | exact mbStrict.lt_trans (_, _) (_, _) (_, _) h1 h2
      | exact scbhStrict.lt_trans (_, _, _) (_, _, _) (_, _, _) h1 h2
      | exact scbnStrict.lt_trans (_, _, _) (_, _, _) (_, _, _) h1 h2
      | exact svcbnStrict.lt_trans (_, _, _, _) (_, _, _, _) (_, _, _, _) h1 h2
      | exact svcbhStrict.lt_trans (_, _, _, _) (_, _, _, _) (_, _, _, _) h1 h2
      | exact bytesStrict.lt_trans _ _ _ h1 h2

theorem cmp_rank_dominates : ∀ a b : ExecutableDeployItem,
    a.rank ≠ b.rank → cmp a b = compare a.rank b.rank := by
  intro a b h
  cases a <;> cases b <;> first | rfl | exact absurd rfl h

theorem cmpStrict : StrictCmp cmp :=
  ⟨cmp_eq_iff, cmp_symm, cmp_lt_trans⟩

end ExecutableDeployItem

/-! ### The claims -/

/-- C1: for every `ExecutableDeployItem` and every `Account`,
`to_contract_hash_key` returns `Ok(None)` if and only if the item is a
`ModuleBytes` or `Transfer` variant. -/
theorem to_contract_hash_key_ok_none_iff
    (item : ExecutableDeployItem) (account : Account) :
    item.to_contract_hash_key account = .ok none ↔
      ((∃ mb args, item = .moduleBytes mb args) ∨
        (∃ args, item = .transfer args)) := by
  cases item with
  | moduleBytes mb args => simp [ExecutableDeployItem.to_contract_hash_key]
  | storedContractByHash h ep args =>
    simp [ExecutableDeployItem.to_contract_hash_key]
  | storedContractByName n ep args =>
    cases hk : account.named_keys_get n <;>
      simp [ExecutableDeployItem.to_contract_hash_key, hk]
  | storedVersionedContractByName n v ep args =>
    cases hk : account.named_keys_get n <;>
      simp [ExecutableDeployItem.to_contract_hash_key, hk]
  | storedVersionedContractByHash h v ep args =>
    simp [ExecutableDeployItem.to_contract_hash_key]
  | transfer args => simp [ExecutableDeployItem.to_contract_hash_key]

/-- Witness for C1 at a concrete input: a `Transfer` maps to `Ok(None)`. -/
theorem to_contract_hash_key_ok_none_iff_witness :
    (ExecutableDeployItem.transfer []).to_contract_hash_key ⟨[]⟩ = .ok none :=
  (to_contract_hash_key_ok_none_iff (.transfer []) ⟨[]⟩).mpr (Or.inr ⟨[], rfl⟩)

/-- C2: for the two hash-addressed variants, `to_contract_hash_key` always
returns `Ok(Some(key))` with the key built directly from the carried hash —
the same value for every account, so the account's named keys are never
consulted and no error is possible. -/
theorem to_contract_hash_key_hash_addressed
    (h : List Nat) (ep : String) (args : List Nat) (v : Option ContractVersion)
    (account : Account) :
    (ExecutableDeployItem.storedContractByHash h ep args).to_contract_hash_key
        account = .ok (some (Key.hash h)) ∧
    (ExecutableDeployItem.storedVersionedContractByHash h v ep args).to_contract_hash_key
        account = .ok (some (Key.hash h)) :=
  ⟨rfl, rfl⟩

/-- C3: for the two name-addressed variants, `to_contract_hash_key` returns
`Ok(Some(k))` exactly when the account's named keys map the carried name to
`k`, and fails with `NamedKeyNotFound` carrying exactly that name when the
mapping lacks it. -/
theorem to_contract_hash_key_name_addressed
    (n ep : String) (args : List Nat) (v : Option ContractVersion)
    (account : Account) :
    (∀ k, account.named_keys_get n = some k →
      ((ExecutableDeployItem.storedContractByName n ep args).to_contract_hash_key
          account = .ok (some k) ∧
       (ExecutableDeployItem.storedVersionedContractByName n v ep args).to_contract_hash_key
          account = .ok (some k))) ∧
    (account.named_keys_get n = none →
      ((ExecutableDeployItem.storedContractByName n ep args).to_contract_hash_key
          account = .error (Error.exec (ExecutionError.namedKeyNotFound n)) ∧
       (ExecutableDeployItem.storedVersionedContractByName n v ep args).to_contract_hash_key
          account = .error (Error.exec (ExecutionError.namedKeyNotFound n)))) := by
  constructor
  · intro k hk
    constructor <;> simp [ExecutableDeployItem.to_contract_hash_key, hk]
  · intro hk
    constructor <;> simp [ExecutableDeployItem.to_contract_hash_key, hk]

/-- Witness for C3 at concrete inputs: a hit on name `pos` and a miss on an
empty namespace. -/
theorem to_contract_hash_key_name_addressed_witness :
    (ExecutableDeployItem.storedContractByName "pos" "bond" []).to_contract_hash_key
        ⟨[("pos", Key.hash [1])]⟩ = .ok (some (Key.hash [1])) ∧
    (ExecutableDeployItem.storedVersionedContractByName "pos" none "bond" []).to_contract_hash_key
        ⟨[]⟩ = .error (Error.exec (ExecutionError.namedKeyNotFound "pos")) :=
  ⟨((to_contract_hash_key_name_addressed "pos" "bond" [] none
      ⟨[("pos", Key.hash [1])]⟩).1 (Key.hash [1]) (by decide)).1,
   ((to_contract_hash_key_name_addressed "pos" "bond" [] none ⟨[]⟩).2 rfl).2⟩

/-- C4: `entry_point_name` is a total function of the descriptor alone:
`ModuleBytes` and `Transfer` yield the fixed default constant whatever their
other fields hold, and each stored variant yields its carried entry-point
string unchanged. -/
theorem entry_point_name_total :
    (∀ mb args, (ExecutableDeployItem.moduleBytes mb args).entry_point_name
        = DEFAULT_ENTRY_POINT_NAME) ∧
    (∀ args, (ExecutableDeployItem.transfer args).entry_point_name
        = DEFAULT_ENTRY_POINT_NAME) ∧
    (∀ h ep args, (ExecutableDeployItem.storedContractByHash h ep args).entry_point_name
        = ep) ∧
    (∀ n ep args, (ExecutableDeployItem.storedContractByName n ep args).entry_point_name
        = ep) ∧
    (∀ n v ep args,
      (ExecutableDeployItem.storedVersionedContractByName n v ep args).entry_point_name
        = ep) ∧
    (∀ h v ep args,
      (ExecutableDeployItem.storedVersionedContractByHash h v ep args).entry_point_name
        = ep) :=
  ⟨fun _ _ => rfl, fun _ => rfl, fun _ _ _ => rfl, fun _ _ _ => rfl,
   fun _ _ _ _ => rfl, fun _ _ _ _ => rfl⟩

/-- Every variant's `into_runtime_args` is the codec decode of its `args`
buffer. -/
theorem into_runtime_args_eq_deserialize (item : ExecutableDeployItem) :
    item.into_runtime_args = bytesrepr.deserialize item.argsBytes := by
  cases item <;> rfl

/-- C5: `into_runtime_args` depends only on the `args` byte buffer: two
descriptors of any variants with byte-for-byte equal buffers decode to equal
results. -/
theorem into_runtime_args_args_only (a b : ExecutableDeployItem)
    (h : a.argsBytes = b.argsBytes) :
    a.into_runtime_args = b.into_runtime_args := by
  rw [into_runtime_args_eq_deserialize, into_runtime_args_eq_deserialize, h]

/-- Witness for C5 at concrete inputs: a `Transfer` and a `ModuleBytes` with
the same one-byte buffer decode identically. -/
theorem into_runtime_args_args_only_witness :
    (ExecutableDeployItem.transfer [0]).argsBytes
        = (ExecutableDeployItem.moduleBytes [7] [0]).argsBytes ∧
    (ExecutableDeployItem.transfer [0]).into_runtime_args
        = (ExecutableDeployItem.moduleBytes [7] [0]).into_runtime_args :=
  ⟨rfl, into_runtime_args_args_only _ _ rfl⟩

/-- C6: round trip through the argument codec: a descriptor of any variant
whose buffer is the encoding of a mapping `m` decodes back to exactly `m`. -/
theorem into_runtime_args_roundtrip (m : RuntimeArgs) :
    (∀ mb, (ExecutableDeployItem.moduleBytes mb
        (bytesrepr.serialize m)).into_runtime_args = .ok m) ∧
    (∀ h ep, (ExecutableDeployItem.storedContractByHash h ep
        (bytesrepr.serialize m)).into_runtime_args = .ok m) ∧
    (∀ n ep, (ExecutableDeployItem.storedContractByName n ep
        (bytesrepr.serialize m)).into_runtime_args = .ok m) ∧
    (∀ n v ep, (ExecutableDeployItem.storedVersionedContractByName n v ep
        (bytesrepr.serialize m)).into_runtime_args = .ok m) ∧
    (∀ h v ep, (ExecutableDeployItem.storedVersionedContractByHash h v ep
        (bytesrepr.serialize m)).into_runtime_args = .ok m) ∧
    ((ExecutableDeployItem.transfer
        (bytesrepr.serialize m)).into_runtime_args = .ok m) := by
  have hr := bytesrepr.deserialize_serialize m
  exact ⟨fun _ => hr, fun _ _ => hr, fun _ _ => hr, fun _ _ _ => hr,
    fun _ _ _ => hr, hr⟩

/-- C7: the derived ordering on `ExecutableDeployItem` is a strict total
order consistent with equality — for all `a, b` exactly one of `a < b`,
`a = b`, `b < a` holds, comparing equal is the same as being equal, the
strict order is transitive — and across different variants the discriminant
rank (in declaration order) alone decides the comparison; same-variant
field-wise byte-for-byte comparison is the definition of `cmp` itself. -/
theorem executable_deploy_item_order_strict_total :
    (∀ a b : ExecutableDeployItem,
      (ExecutableDeployItem.cmp a b = .lt ∧ a ≠ b ∧
          ExecutableDeployItem.cmp b a ≠ .lt) ∨
      (ExecutableDeployItem.cmp a b ≠ .lt ∧ a = b ∧
          ExecutableDeployItem.cmp b a ≠ .lt) ∨
      (ExecutableDeployItem.cmp a b ≠ .lt ∧ a ≠ b ∧
          ExecutableDeployItem.cmp b a = .lt)) ∧
    (∀ a b, ExecutableDeployItem.cmp a b = .eq ↔ a = b) ∧
    (∀ a b c, ExecutableDeployItem.cmp a b = .lt →
      ExecutableDeployItem.cmp b c = .lt → ExecutableDeployItem.cmp a c = .lt) ∧
    (∀ a b : ExecutableDeployItem, a.rank ≠ b.rank →
      ExecutableDeployItem.cmp a b = compare a.rank b.rank) := by
  refine ⟨?_, ExecutableDeployItem.cmp_eq_iff, ExecutableDeployItem.cmp_lt_trans,
    ExecutableDeployItem.cmp_rank_dominates⟩
  intro a b
  have hsymm := ExecutableDeployItem.cmp_symm a b
  rcases hab : ExecutableDeployItem.cmp a b with _ | _ | _
  · refine Or.inl ⟨rfl, ?_, ?_⟩
    · intro he
      rw [he] at hab
      exact Ordering.noConfusion
        ((ExecutableDeployItem.cmpStrict.refl b).symm.trans hab)
    · rw [hab] at hsymm
      intro hba
      rw [hba] at hsymm
      exact Ordering.noConfusion hsymm
  · refine Or.inr (Or.inl ⟨?_, (ExecutableDeployItem.cmp_eq_iff a b).mp hab, ?_⟩)
    · exact fun h => Ordering.noConfusion h
    · rw [hab] at hsymm
      intro hba
      rw [hba] at hsymm
      exact Ordering.noConfusion hsymm
  · refine Or.inr (Or.inr ⟨?_, ?_, ?_⟩)
    · exact fun h => Ordering.noConfusion h
    · intro he
      rw [he] at hab
      exact Ordering.noConfusion
        ((ExecutableDeployItem.cmpStrict.refl b).symm.trans hab)
    · rw [hab] at hsymm
      exact hsymm.symm

/-- Witness for C7 at concrete inputs: the rank-domination conjunct applied
to a `ModuleBytes` and a `Transfer` value. -/
theorem executable_deploy_item_order_strict_total_witness :
    ExecutableDeployItem.cmp (.moduleBytes [] []) (.transfer []) =
      compare (ExecutableDeployItem.rank (.moduleBytes [] []))
        (ExecutableDeployItem.rank (.transfer [])) :=
  executable_deploy_item_order_strict_total.2.2.2
    (.moduleBytes [] []) (.transfer []) (by decide)

/-- The cloning lookup returns exactly the association-list lookup and leaves
the mapping as it found it. -/
theorem lookupClone_spec (l : List (String × Key)) (n : String) :
    lookupClone l n = (l.lookup n, l) := by
  induction l with
  | nil => rfl
  | cons p rest ih =>
    obtain ⟨k, v⟩ := p
    cases hk : (n == k) <;> simp [lookupClone, List.lookup, hk, ih]

/-- C9: `to_contract_hash_key` never mutates its inputs: running the
state-threaded rendition leaves the account (and with it its named-keys
mapping) unchanged and computes the same result, on success and on failure
alike; the descriptor is consumed by shared reference and is no part of the
mutable state at all. -/
theorem to_contract_hash_key_no_mutation
    (item : ExecutableDeployItem) (account : Account) :
    (item.to_contract_hash_key_run account).2 = account ∧
    (item.to_contract_hash_key_run account).1
      = item.to_contract_hash_key account := by
  cases item <;>
    simp [ExecutableDeployItem.to_contract_hash_key_run,
      ExecutableDeployItem.to_contract_hash_key, lookupClone_spec,
      Account.named_keys_get]

/-- A middle segment of a three-part concatenation occurs in the rendered
text. -/
theorem data_infix_piece (pre mid post : String) :
    List.IsInfix mid.data (pre ++ mid ++ post).data :=
  ⟨pre.data, post.data, by simp [String.data_append]⟩

/-- C8: the human-readable rendering of the two versioned variants contains
"latest version" exactly in the absent-version state and "version v" with the
integer printed in the present-version state, and rendering `Some 0` differs
from rendering `None`, so absence is not conflated with zero. -/
theorem display_version_rendering :
    (∀ n ep args, List.IsInfix ("latest version" : String).data
        (ExecutableDeployItem.display
          (.storedVersionedContractByName n none ep args)).data) ∧
    (∀ n v ep args, List.IsInfix ("version " ++ toString v : String).data
        (ExecutableDeployItem.display
          (.storedVersionedContractByName n (some v) ep args)).data) ∧
    (∀ h ep args, List.IsInfix ("latest version" : String).data
        (ExecutableDeployItem.display
          (.storedVersionedContractByHash h none ep args)).data) ∧
    (∀ h v ep args, List.IsInfix ("version " ++ toString v : String).data
        (ExecutableDeployItem.display
          (.storedVersionedContractByHash h (some v) ep args)).data) ∧
    (∀ n ep args,
      ExecutableDeployItem.display (.storedVersionedContractByName n (some 0) ep args)
        ≠ ExecutableDeployItem.display (.storedVersionedContractByName n none ep args)) ∧
    (∀ h ep args,
      ExecutableDeployItem.display (.storedVersionedContractByHash h (some 0) ep args)
        ≠ ExecutableDeployItem.display (.storedVersionedContractByHash h none ep args)) := by
  refine ⟨?_, ?_, ?_, ?_, ?_, ?_⟩
  · intro n ep args
    have hd : ExecutableDeployItem.display
        (.storedVersionedContractByName n none ep args) =
        ("execute stored versioned contract " ++ n ++ ", ") ++ "latest version"
          ++ (", entry point " ++ ep ++ ", args " ++ hexFmt10 args) := by
      apply String.ext
      simp only [ExecutableDeployItem.display, String.data_append, List.append_assoc]
      simp
    rw [hd]
    exact data_infix_piece _ _ _
  · intro n v ep args
    have hd : ExecutableDeployItem.display
        (.storedVersionedContractByName n (some v) ep args) =
        ("execute stored versioned contract " ++ n ++ ", ")
          ++ ("version " ++ toString v)
          ++ (", entry point " ++ ep ++ ", args " ++ hexFmt10 args) := by
      apply String.ext
      simp only [ExecutableDeployItem.display, String.data_append, List.append_assoc]
      simp
    rw [hd]
    exact data_infix_piece _ _ _
  · intro h ep args
    have hd : ExecutableDeployItem.display
        (.storedVersionedContractByHash h none ep args) =
        ("execute stored versioned contract by hash " ++ hexFmt h ++ ", ")
          ++ "latest version"
          ++ (", entry point " ++ ep ++ ", args " ++ hexFmt10 args) := by
      apply String.ext
      simp only [ExecutableDeployItem.display, String.data_append, List.append_assoc]
      simp
    rw [hd]
    exact data_infix_piece _ _ _
  · intro h v ep args
    have hd : ExecutableDeployItem.display
        (.storedVersionedContractByHash h (some v) ep args) =
        ("execute stored versioned contract by hash " ++ hexFmt h ++ ", ")
          ++ ("version " ++ toString v)
          ++ (", entry point " ++ ep ++ ", args " ++ hexFmt10 args) := by
      apply String.ext
      simp only [ExecutableDeployItem.display, String.data_append, List.append_assoc]
      simp
    rw [hd]
    exact data_infix_piece _ _ _
  · intro n ep args heq
    have hdata := congrArg String.data heq
    simp only [ExecutableDeployItem.display, String.data_append,
      List.append_assoc] at hdata
    have h2 := (List.append_right_inj _).mp hdata
    have h3 := (List.append_right_inj _).mp h2
    have h4 := congrArg (fun l => l[2]?) h3
    simp only [] at h4
    rw [List.getElem?_append_left (by decide),
      List.getElem?_append_left (by decide)] at h4
    exact absurd h4 (by decide)
  · intro h ep args heq
    have hdata := congrArg String.data heq
    simp only [ExecutableDeployItem.display, String.data_append,
      List.append_assoc] at hdata
    have h2 := (List.append_right_inj _).mp hdata
    have h3 := (List.append_right_inj _).mp h2
    have h4 := congrArg (fun l => l[2]?) h3
    simp only [] at h4
    rw [List.getElem?_append_left (by decide),
      List.getElem?_append_left (by decide)] at h4
    exact absurd h4 (by decide)

/-- Witness for C8 at concrete inputs: rendering version `Some 0` differs
from rendering `None` on otherwise identical fields. -/
theorem display_version_rendering_witness :
    ExecutableDeployItem.display
        (.storedVersionedContractByName "pos" (some 0) "bond" [])
      ≠ ExecutableDeployItem.display
        (.storedVersionedContractByName "pos" none "bond" []) :=
  display_version_rendering.2.2.2.2.1 "pos" "bond" []

/-- C10: in the derived order, two versioned values of the same variant that
agree on every field except the version compare with `None` strictly before
`Some v`, for every `v`. -/
theorem order_version_none_before_some
    (n : String) (h : List Nat) (v : ContractVersion) (ep : String)
    (args : List Nat) :
    ExecutableDeployItem.cmp
        (.storedVersionedContractByName n none ep args)
        (.storedVersionedContractByName n (some v) ep args) = .lt ∧
    ExecutableDeployItem.cmp
        (.storedVersionedContractByHash h none ep args)
        (.storedVersionedContractByHash h (some v) ep args) = .lt := by
  constructor
  · show (cmpString n n).then _ = .lt
    rw [stringStrict.refl n]
    rfl
  · show (cmpBytes h h).then _ = .lt
    rw [bytesStrict.refl h]
    rfl

end Casper
